import Mathlib

/-!
Shallow embedding of the integrity-check pipeline (src/main.go) and proofs
about it.  The program walks a destination tree, records one ledger row per
regular file in a PostgreSQL table, and then fills in SHA-256 digests of the
destination-side and source-side copies of every recorded file.

Machine integers are modelled as `Nat` with explicit reduction modulo `2^32`
(respectively `2^64` for the SHA-256 length field); bytes are `Nat` values
below 256; Go strings are modelled as Lean `String` with byte-level
operations mapped to `Char`-list operations.
-/

set_option maxRecDepth 10000

namespace IntegrityCheck

/-! ### SHA-256 (crypto/sha256 as driven by io.Copy + Sum + %x formatting) -/

/-- Reduce a natural number to a 32-bit word. -/
def w32 (n : Nat) : Nat := n % 2 ^ 32

/-- Right rotation of a 32-bit word by `n` places. -/
def rotWord (x n : Nat) : Nat := w32 ((x >>> n) ||| (x <<< (32 - n)))

/-- SHA-256 `Ch` function; complement is taken against the 32-bit mask. -/
def chFun (x y z : Nat) : Nat := (x &&& y) ^^^ ((x ^^^ (2 ^ 32 - 1)) &&& z)

/-- SHA-256 `Maj` function. -/
def majFun (x y z : Nat) : Nat := (x &&& y) ^^^ (x &&& z) ^^^ (y &&& z)

/-- SHA-256 upper sigma 0 (rotations by 2, 13 and 22). -/
def sum0 (x : Nat) : Nat := rotWord x 2 ^^^ (rotWord x 13 ^^^ rotWord x 22)

/-- SHA-256 upper sigma 1 (rotations by 6, 11 and 25). -/
def sum1 (x : Nat) : Nat := rotWord x 6 ^^^ (rotWord x 11 ^^^ rotWord x 25)

/-- SHA-256 lower sigma 0 (rotations by 7 and 18, shift by 3). -/
def sig0 (x : Nat) : Nat := rotWord x 7 ^^^ (rotWord x 18 ^^^ (x >>> 3))

/-- SHA-256 lower sigma 1 (rotations by 17 and 19, shift by 10). -/
def sig1 (x : Nat) : Nat := rotWord x 17 ^^^ (rotWord x 19 ^^^ (x >>> 10))

/-- The 64 SHA-256 round constants of FIPS 180-4 (the fractional parts of the
cube roots of the first 64 primes), written in decimal. -/
def sha256K : List Nat :=
  [1116352408, 1899447441, 3049323471, 3921009573, 961987163,
   1508970993, 2453635748, 2870763221, 3624381080, 310598401,
   607225278, 1426881987, 1925078388, 2162078206, 2614888103,
   3248222580, 3835390401, 4022224774, 264347078, 604807628,
   770255983, 1249150122, 1555081692, 1996064986, 2554220882,
   2821834349, 2952996808, 3210313671, 3336571891, 3584528711,
   113926993, 338241895, 666307205, 773529912, 1294757372,
   1396182291, 1695183700, 1986661051, 2177026350, 2456956037,
   2730485921, 2820302411, 3259730800, 3345764771, 3516065817,
   3600352804, 4094571909, 275423344, 430227734, 506948616,
   659060556, 883997877, 958139571, 1322822218, 1537002063,
   1747873779, 1955562222, 2024104815, 2227730452, 2361852424,
   2428436474, 2756734187, 3204031479, 3329325298]

/-- The eight SHA-256 initial hash words of FIPS 180-4, written in decimal. -/
def sha256H0 : List Nat :=
  [1779033703, 3144134277, 1013904242, 2773480762, 1359893119,
   2600822924, 528734635, 1541459225]

/-- Big-endian byte decomposition of `n` into exactly `k` bytes (low 8k bits). -/
def toBEBytes : Nat → Nat → List Nat
  | 0, _ => []
  | k + 1, n => toBEBytes k (n / 256) ++ [n % 256]

/-- SHA-256 message padding: append `0x80`, zero bytes up to 56 mod 64, and the
bit length as a 64-bit big-endian quantity. -/
def sha256Pad (msg : List Nat) : List Nat :=
  msg ++ 0x80 :: List.replicate ((119 - msg.length % 64) % 64) 0 ++
    toBEBytes 8 (8 * msg.length)

/-- Group a byte list into big-endian 32-bit words. -/
def bytesToWords : List Nat → List Nat
  | a :: b :: c :: d :: rest =>
      (a * 2 ^ 24 + b * 2 ^ 16 + c * 2 ^ 8 + d) :: bytesToWords rest
  | _ => []

/-- Extend the 16 block words to a 64-entry message schedule. -/
def sha256Schedule (block : List Nat) : List Nat :=
  (List.range 48).foldl
    (fun ws _ =>
      ws ++ [w32 (sig1 (ws.getD (ws.length - 2) 0) + ws.getD (ws.length - 7) 0 +
        sig0 (ws.getD (ws.length - 15) 0) + ws.getD (ws.length - 16) 0)])
    (bytesToWords block)

/-- One SHA-256 compression round; the state is the word list `[a,b,c,d,e,f,g,h]`
and `wk` is the pair of schedule word and round constant. -/
def sha256Round (st : List Nat) (wk : Nat × Nat) : List Nat :=
  let a := st.getD 0 0
  let b := st.getD 1 0
  let c := st.getD 2 0
  let d := st.getD 3 0
  let e := st.getD 4 0
  let f := st.getD 5 0
  let g := st.getD 6 0
  let h := st.getD 7 0
  let t1 := w32 (h + sum1 e + chFun e f g + wk.2 + wk.1)
  let t2 := w32 (sum0 a + majFun a b c)
  [w32 (t1 + t2), a, b, c, w32 (d + t1), e, f, g]

/-- Compress one 64-byte block into the running hash state. -/
def sha256Block (hst : List Nat) (block : List Nat) : List Nat :=
  let st := ((sha256Schedule block).zip sha256K).foldl sha256Round hst
  (hst.zip st).map fun p => w32 (p.1 + p.2)

/-- Split a byte list into 64-byte chunks (fuelled structural recursion). -/
def chunks64F : Nat → List Nat → List (List Nat)
  | 0, _ => []
  | fuel + 1, l => if l.isEmpty then [] else l.take 64 :: chunks64F fuel (l.drop 64)

/-- Split a byte list into 64-byte chunks. -/
def chunks64 (l : List Nat) : List (List Nat) := chunks64F l.length l

/-- SHA-256 digest (32 bytes) of a byte sequence. -/
def sha256 (msg : List Nat) : List Nat :=
  ((chunks64 (sha256Pad msg)).foldl sha256Block sha256H0).flatMap (toBEBytes 4)

/-- Lowercase hexadecimal digit for a value below 16 (as produced by Go `%x`). -/
def hexDigit (n : Nat) : Char :=
  if n < 10 then Char.ofNat (48 + n) else Char.ofNat (87 + n)

/-- Lowercase hexadecimal rendering of a byte list, i.e. Go `fmt.Sprintf("%x", b)`. -/
def hexLower (bytes : List Nat) : String :=
  String.mk (bytes.flatMap fun b => [hexDigit (b / 16 % 16), hexDigit (b % 16)])

/-! ### Go string helpers used by the source (strings.TrimPrefix, string concat) -/

/-- Go `strings.HasPrefix`, at the level of character lists. -/
def hasPrefixGo (s pre : String) : Bool := pre.data.isPrefixOf s.data

/-- Go `strings.TrimPrefix`: drop `pre` from the front of `s` when present,
otherwise return `s` unchanged (src/main.go line 248). -/
def trimPrefixGo (s pre : String) : String :=
  if hasPrefixGo s pre then String.mk (s.data.drop pre.data.length) else s

/-! ### Configuration and ledger data model -/

/-- The `conf` struct of src/main.go (lines 33-41), as loaded by `load_config`. -/
structure Config where
  new_path : String
  old_path : String
  db_connstr : String
  table_name : String
  where_clause : String
  db_maxconnections : Int
  db_idleconnections : Int
deriving DecidableEq

/-- One row of the ledger table: columns `filename text, changed timestamp,
size bigint, hash_new text, hash_old text` (src/main.go lines 73-81).
Timestamps are modelled as integers; nullable text columns as `Option String`. -/
structure Entry where
  filename : String
  size : Int
  changed : Int
  hash_new : Option String
  hash_old : Option String
deriving DecidableEq

/-- The ledger table state, as an ordered list of rows. -/
abbrev Table := List Entry

/-! ### The destination tree and the enumeration walk

`walk_dir` (src/main.go lines 237-255) runs `filepath.Walk` on one directory
with a callback that enqueues each immediate subdirectory as new work
(returning `filepath.SkipDir`) and stages a ledger row for each regular file;
`spawn_walkers` turns every queued directory into a task.  The aggregate
effect of the walker system on an error-free tree is captured by `walk_files`:
the list of `(path, size, mtime)` triples staged for the bulk insert, in
traversal order.  Concurrency only permutes this list; the claims below are
about its contents. -/

/-- A filesystem node: a regular file with size and modification time, a
directory with children, or anything else (symlink, device, socket), which is
neither `IsDir` nor `Mode().IsRegular()`. -/
inductive FsNode where
  | file (name : String) (size : Int) (mtime : Int)
  | dir (name : String) (children : List FsNode)
  | other (name : String)

/-- The name of a node, as it appears in its parent directory. -/
def nodeName : FsNode → String
  | .file n _ _ => n
  | .dir n _ => n
  | .other n => n

/-- Whether a node is a directory. -/
def isDirNode : FsNode → Bool
  | .dir _ _ => true
  | _ => false

mutual

/-- Rows staged by walking the node found at `path`: a regular file stages
itself, another kind of node stages nothing, and a directory stages whatever
its children (each at `path ++ "/" ++ name`) stage. -/
def walk_files : String → FsNode → List (String × Int × Int)
  | path, .file _ sz mt => [(path, sz, mt)]
  | _, .other _ => []
  | path, .dir _ cs => walk_files_children path cs

/-- Rows staged for the children of a directory found at `path`. -/
def walk_files_children : String → List FsNode → List (String × Int × Int)
  | _, [] => []
  | path, c :: cs =>
      walk_files (path ++ "/" ++ nodeName c) c ++ walk_files_children path cs

end

/-- The ledger row staged for one walked regular file: the filename is the
path with the `conf.New_path + "/"` prefix stripped (src/main.go line 248),
and the hash columns are absent from the bulk insert, so they are null. -/
def staged_entry (c : Config) (r : String × Int × Int) : Entry :=
  { filename := trimPrefixGo r.1 (c.new_path ++ "/"), size := r.2.1,
    changed := r.2.2, hash_new := none, hash_old := none }

/-- All rows staged by enumerating the destination tree. -/
def staged_rows (c : Config) (tree : FsNode) : List Entry :=
  (walk_files c.new_path tree).map (staged_entry c)

/-- The enumeration phase (src/main.go lines 87-118): only when the row count
is zero are the staged rows bulk-inserted; otherwise the table is untouched. -/
def enumerate (c : Config) (tree : FsNode) (t : Table) : Table :=
  if t.length = 0 then t ++ staged_rows c tree else t

/-! ### The enumeration transaction

The bulk insert runs through a prepared `pq.CopyIn` statement on a single
transaction: staged rows live in the transaction buffer and reach the table
only at `txn.Commit()` (src/main.go lines 97-117).  Any `die_if` panic before
the commit aborts the process and the uncommitted transaction is discarded.
Failure points are injected through a fault oracle. -/

/-- Fault oracle for the enumeration transaction: `begin_fail` covers
`db.Begin`/`txn.Prepare`, `stage_fail` makes the i-th `stmt.Exec` during the
walk fail, `flush_fail` covers the final `stmt.Exec()`/`stmt.Close()`, and
`commit_fail` covers `txn.Commit()`. -/
structure TxFaults where
  begin_fail : Bool
  stage_fail : Option Nat
  flush_fail : Bool
  commit_fail : Bool
deriving DecidableEq

/-- Transaction state: the committed table plus the uncommitted buffer. -/
structure TxState where
  committed : Table
  buffer : List Entry
deriving DecidableEq

/-- Stage one row inside the transaction; a failure at this point panics the
process, leaving the state as it was. -/
def tx_stage (flt : TxFaults) (idx : Nat) (row : Entry) (s : TxState) :
    Except TxState TxState :=
  if flt.stage_fail = some idx then .error s
  else .ok { s with buffer := s.buffer ++ [row] }

/-- Stage a list of rows, threading the row index for the fault oracle. -/
def tx_stage_all (flt : TxFaults) : List Entry → Nat → TxState → Except TxState TxState
  | [], _, s => .ok s
  | r :: rs, idx, s =>
      match tx_stage flt idx r s with
      | .error s' => .error s'
      | .ok s' => tx_stage_all flt rs (idx + 1) s'

/-- The enumeration phase with its transaction made explicit.  The result is
`.ok` with the table after a successful run (committed), or `.error` with the
table as observable after an aborted run. -/
def enumerate_txn (flt : TxFaults) (c : Config) (tree : FsNode) (t : Table) :
    Except Table Table :=
  if t.length = 0 then
    if flt.begin_fail then .error t
    else
      match tx_stage_all flt (staged_rows c tree) 0 ⟨t, []⟩ with
      | .error s => .error s.committed
      | .ok s =>
          if flt.flush_fail then .error s.committed
          else if flt.commit_fail then .error s.committed
          else .ok (s.committed ++ s.buffer)
  else .ok t

/-! ### The hashing phases -/

/-- Outcome of opening and fully reading one file: `os.Open` failure,
`io.Copy` failure part way through, or the complete byte contents. -/
inductive FileAccess where
  | openFail
  | readFail
  | ok (contents : List Nat)
deriving DecidableEq

/-- The external world of a run: the destination and source filesystems, and
the per-file success of the two `db.Exec` hash updates. -/
structure World where
  fs_new : String → FileAccess
  fs_old : String → FileAccess
  upd_ok_new : String → Bool
  upd_ok_old : String → Bool

/-- Semantics of `update <table> set hash_new = $2 where filename = $1`
(src/main.go line 286): every row whose filename matches gets its `hash_new`
column set to the digest, with no null check. -/
def update_hash_new (t : Table) (file digest : String) : Table :=
  t.map fun e => if e.filename = file then { e with hash_new := some digest } else e

/-- Semantics of `update <table> set hash_old = $2 where filename = $1`
(src/main.go line 323). -/
def update_hash_old (t : Table) (file digest : String) : Table :=
  t.map fun e => if e.filename = file then { e with hash_old := some digest } else e

/-- One iteration of the `hash_new_file` worker loop (src/main.go lines
263-293): open `conf.New_path + "/" + file`, stream it through SHA-256, and
store the `%x` digest; on open failure, read failure, or update failure the
item is skipped and the table is unchanged. -/
def hash_new_step (w : World) (c : Config) (t : Table) (file : String) : Table :=
  match w.fs_new (c.new_path ++ "/" ++ file) with
  | .openFail => t
  | .readFail => t
  | .ok bytes =>
      if w.upd_ok_new file then update_hash_new t file (hexLower (sha256 bytes)) else t

/-- One iteration of the `hash_old_file` worker loop (src/main.go lines
300-330), against `conf.Old_path`. -/
def hash_old_step (w : World) (c : Config) (t : Table) (file : String) : Table :=
  match w.fs_old (c.old_path ++ "/" ++ file) with
  | .openFail => t
  | .readFail => t
  | .ok bytes =>
      if w.upd_ok_old file then update_hash_old t file (hexLower (sha256 bytes)) else t

/-- The destination-side hashing phase: the worker pool drains the queued
filenames; per-file effects commute across rows, so the pool is modelled as a
fold over the queue contents. -/
def hash_new_file (w : World) (c : Config) (t : Table) (files : List String) : Table :=
  files.foldl (hash_new_step w c) t

/-- The source-side hashing phase. -/
def hash_old_file (w : World) (c : Config) (t : Table) (files : List String) : Table :=
  files.foldl (hash_old_step w c) t

/-! ### Work selection and orchestration -/

/-- External semantics of the raw `where_clause` fragment, as a per-row
predicate; the fragment itself is composed outside the core. -/
def ClauseSem : Type := String → Entry → Bool

/-- Whether a row passes the configured filter: an empty `where_clause`
contributes no condition, a non-empty one is conjoined with `and`
(src/main.go lines 126-128 and 161-163). -/
def passes_filter (P : ClauseSem) (c : Config) (e : Entry) : Bool :=
  c.where_clause = "" || P c.where_clause e

/-- Result of `select filename from <table> where hash_new is null [and
<filter>]` (src/main.go line 125). -/
def select_pending_new (P : ClauseSem) (c : Config) (t : Table) : List String :=
  (t.filter fun e => e.hash_new.isNone && passes_filter P c e).map (·.filename)

/-- Result of `select filename from <table> where hash_old is null [and
<filter>]` (src/main.go line 160). -/
def select_pending_old (P : ClauseSem) (c : Config) (t : Table) : List String :=
  (t.filter fun e => e.hash_old.isNone && passes_filter P c e).map (·.filename)

/-- The whole pipeline of `main`: enumerate when the table is empty, then hash
the destination side of every pending row, then the source side. -/
def run_pipeline (w : World) (P : ClauseSem) (c : Config) (tree : FsNode) (t : Table) : Table :=
  let t1 := enumerate c tree t
  let t2 := hash_new_file w c t1 (select_pending_new P c t1)
  hash_old_file w c t2 (select_pending_old P c t2)

/-- The worker-pool degree of each hashing phase: the local variable
`hash_threads := 8` of `main` (src/main.go lines 135 and 170).  It is a
function of the configuration only to record that no configuration field
feeds it. -/
def hash_threads (c : Config) : Nat := 8

/-- The capacity of the shared `to_hash` channel:
`make(chan string, hash_threads)` (src/main.go lines 136 and 171). -/
def to_hash_capacity (c : Config) : Nat := hash_threads c

/-! ### The walk callback under filesystem errors

`walk_dir`'s `visit` closure (src/main.go lines 240-252) receives
`(path, info, err)` from `filepath.Walk`.  When the walk root cannot be
stat'd, `filepath.Walk` invokes the callback with a nil `info` and a non-nil
`err`; when reading a directory fails, the callback gets the directory's own
valid `info` together with the error.  The Go condition
`path != dir && err == nil && info.IsDir()` short-circuits, and the unguarded
`info.Mode().IsRegular()` on the next line dereferences `info`; with a nil
`info` every control path therefore dereferences nil and panics.  The closure
only ever returns `nil` or `filepath.SkipDir` — never an error — and
`walk_dir` discards the return value of `filepath.Walk` (line 254), so no
traversal error can reach the enumeration transaction. -/

/-- The parts of `os.FileInfo` the callback reads. -/
structure GoFileInfo where
  isDir : Bool
  isRegular : Bool
  size : Int
  mtime : Int
deriving DecidableEq

/-- Result of one callback invocation: rows staged, directories enqueued, and
whether `filepath.SkipDir` was returned (`false` means a `nil` return — the
closure has no error-returning path); or a nil-pointer panic. -/
inductive VisitOutcome where
  | ok (staged : List (String × Int × Int)) (enqueued : List String) (skipDir : Bool)
  | panicked
deriving DecidableEq

/-- The `visit` closure of `walk_dir`. -/
def visit (dir path : String) (info : Option GoFileInfo) (err : Option String) :
    VisitOutcome :=
  match info with
  | none => .panicked
  | some i =>
      if path ≠ dir ∧ err = none ∧ i.isDir = true then .ok [] [path] true
      else if i.isRegular then .ok [(path, i.size, i.mtime)] [] false
      else .ok [] [] false

/-! ### SQL identifier quoting (claim C10)

The table name is interpolated through `pq.QuoteIdentifier` in the
create-table and row-count statements and through `pq.CopyIn` for the bulk
insert, but raw (`conf.Table_name` directly in `fmt.Sprintf`) in the two
pending-row selects and the two hash updates.  PostgreSQL resolves a quoted
identifier to exactly its contents, and an unquoted identifier — when it is
syntactically an identifier at all and not a reserved keyword — to its
lowercase folding. -/

/-- Go `pq.QuoteIdentifier`: truncate at the first NUL rune, double every
embedded double quote, and wrap in double quotes. -/
def quoteIdentifier (name : String) : String :=
  let nm := String.mk (name.data.takeWhile fun ch => ch ≠ Char.ofNat 0)
  "\"" ++ String.mk (nm.data.flatMap fun ch => if ch = '"' then ['"', '"'] else [ch]) ++ "\""

/-- The create-table statement (src/main.go lines 73-81), with the table name
quoted; whitespace is normalised. -/
def create_table_query (c : Config) : String :=
  "create table if not exists " ++ quoteIdentifier c.table_name ++
    " ( filename text, changed timestamp, size bigint, hash_new text, hash_old text )"

/-- The row-count query (src/main.go line 88), with the table name quoted. -/
def count_query (c : Config) : String :=
  "select count(*) from " ++ quoteIdentifier c.table_name

/-- The `pq.CopyIn` bulk-insert statement (src/main.go line 99); `CopyIn`
quotes the table name and every column name. -/
def copy_in_stmt (c : Config) : String :=
  "COPY " ++ quoteIdentifier c.table_name ++
    " (\"filename\", \"size\", \"changed\") FROM STDIN"

/-- The destination-side pending select (src/main.go lines 125-128), with the
table name interpolated raw. -/
def select_new_query (c : Config) : String :=
  "select filename from " ++ c.table_name ++ " where hash_new is null" ++
    (if c.where_clause = "" then "" else " and " ++ c.where_clause)

/-- The source-side pending select (src/main.go lines 160-163). -/
def select_old_query (c : Config) : String :=
  "select filename from " ++ c.table_name ++ " where hash_old is null" ++
    (if c.where_clause = "" then "" else " and " ++ c.where_clause)

/-- The destination-side hash update statement (src/main.go line 286), with
the table name interpolated raw. -/
def update_new_query (c : Config) : String :=
  "update " ++ c.table_name ++ " set hash_new = $2 where filename = $1"

/-- The source-side hash update statement (src/main.go line 323). -/
def update_old_query (c : Config) : String :=
  "update " ++ c.table_name ++ " set hash_old = $2 where filename = $1"

/-- ASCII-lowercase folding applied by PostgreSQL to unquoted identifiers. -/
def foldIdent (s : String) : String := String.mk (s.data.map Char.toLower)

/-- Whether a character may start an unquoted identifier. -/
def isIdentStart (ch : Char) : Bool := ch.isAlpha || ch = '_'

/-- Whether a character may continue an unquoted identifier. -/
def isIdentCont (ch : Char) : Bool := ch.isAlphanum || ch = '_' || ch = '$'

/-- PostgreSQL reserved keywords (the fully reserved set), which cannot stand
as a table name without quoting. -/
def reservedWords : List String :=
  ["all", "analyse", "analyze", "and", "any", "array", "as", "asc",
   "asymmetric", "both", "case", "cast", "check", "collate", "column",
   "constraint", "create", "current_catalog", "current_date", "current_role",
   "current_time", "current_timestamp", "current_user", "default",
   "deferrable", "desc", "distinct", "do", "else", "end", "except", "false",
   "fetch", "for", "foreign", "from", "grant", "group", "having", "in",
   "initially", "intersect", "into", "lateral", "leading", "limit",
   "localtime", "localtimestamp", "not", "null", "offset", "on", "only",
   "or", "order", "placing", "primary", "references", "returning", "select",
   "session_user", "some", "symmetric", "table", "then", "to", "trailing",
   "true", "union", "unique", "user", "using", "variadic", "when", "where",
   "window", "with"]

/-- The table referenced by a raw (unquoted) occurrence of `name` in a query:
its lowercase folding when `name` is syntactically an unquoted identifier and
not reserved, and nothing (a syntax error) otherwise. -/
def unquotedReferent (name : String) : Option String :=
  match name.data with
  | [] => none
  | ch :: rest =>
      if isIdentStart ch && rest.all isIdentCont &&
          !(reservedWords.contains (foldIdent name)) then
        some (foldIdent name)
      else none

/-- Undo quote doubling inside a quoted identifier; fails on a lone quote. -/
def undouble : List Char → Option (List Char)
  | [] => some []
  | ch :: rest =>
      if ch = '"' then
        match rest with
        | [] => none
        | ch2 :: rest2 =>
            if ch2 = '"' then (undouble rest2).map (fun l => '"' :: l) else none
      else (undouble rest).map (fun l => ch :: l)

/-- The table referenced by a double-quoted identifier occurrence: its
undoubled contents. -/
def quotedReferent (s : String) : Option String :=
  match s.data with
  | '"' :: rest =>
      match rest.getLast? with
      | some lc =>
          if lc = '"' then (undouble rest.dropLast).map String.mk else none
      | none => none
  | _ => none

/-- The table referenced by an identifier token in table position. -/
def identReferent (tok : String) : Option String :=
  if tok.data.head? = some '"' then quotedReferent tok else unquotedReferent tok

/-- A table name requires identifier quoting when a raw occurrence of it does
not reference the table of that name (mixed case, reserved word, special
characters, or not a single identifier at all). -/
def needsQuoting (name : String) : Prop := identReferent name ≠ some name

/-! ### Well-formed trees -/

/-- A name is a valid directory entry name component when it contains no
path separator. -/
def noSlash (s : String) : Prop := '/' ∉ s.data

/-- A well-formed filesystem tree: within every directory, the children carry
pairwise distinct, separator-free names — what a real filesystem guarantees. -/
inductive WFTree : FsNode → Prop where
  | file : ∀ {n sz mt}, WFTree (.file n sz mt)
  | other : ∀ {n}, WFTree (.other n)
  | dir : ∀ {n cs}, (∀ c ∈ cs, WFTree c) → (∀ c ∈ cs, noSlash (nodeName c)) →
      (cs.map nodeName).Nodup → WFTree (.dir n cs)

/-! ### Derived notions used to state the claims -/

/-- Whether the destination-side worker can fully process `file`: the file
opens and reads completely and the hash update succeeds. -/
def new_ok (w : World) (c : Config) (file : String) : Bool :=
  (match w.fs_new (c.new_path ++ "/" ++ file) with
   | .ok _ => true
   | _ => false) && w.upd_ok_new file

/-- Whether the source-side worker can fully process `file`. -/
def old_ok (w : World) (c : Config) (file : String) : Bool :=
  (match w.fs_old (c.old_path ++ "/" ++ file) with
   | .ok _ => true
   | _ => false) && w.upd_ok_old file

/-- The digest the destination-side worker would store for `file` (meaningful
when the file reads successfully). -/
def new_digest (w : World) (c : Config) (file : String) : String :=
  match w.fs_new (c.new_path ++ "/" ++ file) with
  | .ok bytes => hexLower (sha256 bytes)
  | _ => ""

/-- The digest the source-side worker would store for `file`. -/
def old_digest (w : World) (c : Config) (file : String) : String :=
  match w.fs_old (c.old_path ++ "/" ++ file) with
  | .ok bytes => hexLower (sha256 bytes)
  | _ => ""

/-- A row's `hash_new`, when present, is the lowercase-hex SHA-256 digest of
the full contents of the destination file at the root joined with the row's
filename. -/
def GoodNew (w : World) (c : Config) (e : Entry) : Prop :=
  ∀ d, e.hash_new = some d →
    ∃ bytes, w.fs_new (c.new_path ++ "/" ++ e.filename) = .ok bytes ∧
      d = hexLower (sha256 bytes)

/-- A row's `hash_old`, when present, is the digest of the source-side file. -/
def GoodOld (w : World) (c : Config) (e : Entry) : Prop :=
  ∀ d, e.hash_old = some d →
    ∃ bytes, w.fs_old (c.old_path ++ "/" ++ e.filename) = .ok bytes ∧
      d = hexLower (sha256 bytes)

/-- Every non-null hash stored in the table is the digest of the matching
file on the corresponding side. -/
def HashInv (w : World) (c : Config) (t : Table) : Prop :=
  ∀ e ∈ t, GoodNew w c e ∧ GoodOld w c e

/-! ### Concrete inputs used by the per-claim witnesses and counterexamples -/

/-- A filter semantics that lets every row through. -/
def semAll : ClauseSem := fun _ _ => true

/-- Concrete configuration for the claim C1 witness. -/
def cfg1 : Config :=
  { new_path := "/dst", old_path := "/src", db_connstr := "", table_name := "ledger",
    where_clause := "", db_maxconnections := 2, db_idleconnections := 1 }

/-- Concrete world for the claim C1 witness: both sides hold "abcd" under
filename `a`, and updates succeed. -/
def wld1 : World :=
  { fs_new := fun p => if p = "/dst/a" then .ok [97, 98, 99, 100] else .openFail,
    fs_old := fun p => if p = "/src/a" then .ok [97, 98, 99, 100] else .openFail,
    upd_ok_new := fun _ => true, upd_ok_old := fun _ => true }

/-- Concrete destination tree for the claim C1 witness. -/
def tree1 : FsNode := .dir "dst" [.file "a" 4 7]

/-- Concrete configuration for the claim C2 witness. -/
def cfg2 : Config :=
  { new_path := "/dst", old_path := "/src", db_connstr := "", table_name := "ledger",
    where_clause := "", db_maxconnections := 2, db_idleconnections := 1 }

/-- Concrete destination tree for the claim C2 witness: a file and a
subdirectory holding another file. -/
def tree2 : FsNode := .dir "dst" [.file "a" 4 7, .dir "sub" [.file "b" 0 9], .other "link"]

/-- Concrete table for the claim C3 witness: one already-hashed row. -/
def tbl3 : Table := [{ filename := "a", size := 4, changed := 7, hash_new := some "aa", hash_old := some "bb" }]

/-- Concrete world for the claim C3 witness. -/
def wld3 : World :=
  { fs_new := fun _ => .openFail, fs_old := fun _ => .openFail,
    upd_ok_new := fun _ => true, upd_ok_old := fun _ => true }

/-- Concrete table for the claim C4 witness: one pending row. -/
def tbl4 : Table := [{ filename := "a", size := 4, changed := 7, hash_new := none, hash_old := none }]

/-- Concrete world for the claim C4 witness: every open fails. -/
def wld4 : World :=
  { fs_new := fun _ => .openFail, fs_old := fun _ => .openFail,
    upd_ok_new := fun _ => true, upd_ok_old := fun _ => true }

/-- Concrete table for the claim C5 witness: one hashed row, two pending. -/
def tbl5 : Table :=
  [{ filename := "a", size := 1, changed := 0, hash_new := some "aa", hash_old := none },
   { filename := "b", size := 2, changed := 0, hash_new := none, hash_old := none },
   { filename := "c", size := 3, changed := 0, hash_new := none, hash_old := none }]

/-- Concrete world for the claim C5 witness: empty files, updates succeed. -/
def wld5 : World :=
  { fs_new := fun _ => .ok [], fs_old := fun _ => .ok [],
    upd_ok_new := fun _ => true, upd_ok_old := fun _ => true }

/-- Concrete configuration shared by the hashing-phase witnesses. -/
def cfgHash : Config :=
  { new_path := "/dst", old_path := "/src", db_connstr := "", table_name := "ledger",
    where_clause := "", db_maxconnections := 2, db_idleconnections := 1 }

/-- Concrete table for the claim C6 counterexample: two rows sharing a
filename — the persistent store enforces no uniqueness — one pending, one
already holding a `hash_new`. -/
def tbl6 : Table :=
  [{ filename := "a", size := 1, changed := 0, hash_new := none, hash_old := none },
   { filename := "a", size := 2, changed := 0, hash_new := some "ff", hash_old := none }]

/-- Concrete world for the claim C6 counterexample: `a` is an empty file. -/
def wld6 : World :=
  { fs_new := fun _ => .ok [], fs_old := fun _ => .ok [],
    upd_ok_new := fun _ => true, upd_ok_old := fun _ => true }

/-- An empty destination tree for witnesses that skip enumeration. -/
def treeEmpty : FsNode := .dir "dst" []

/-- Faults for the claim C7 witness: the first staged row fails to write. -/
def flt7 : TxFaults :=
  { begin_fail := false, stage_fail := some 0, flush_fail := false, commit_fail := false }

/-- Concrete destination tree for the claim C7 witness. -/
def tree7 : FsNode := .dir "dst" [.file "a" 4 7]

/-- A directory file info, as handed to the walk callback on a directory it
could not read. -/
def dirInfo9 : GoFileInfo := { isDir := true, isRegular := false, size := 0, mtime := 0 }

/-! ## Theorems

First general helper lemmas about the embedded operations, then one theorem
per claim (with its witness or counterexample where required). -/

/-- The well-known SHA-256 digest of the empty input, validating the embedded
hash function against the FIPS 180-4 test value quoted in the spec. -/
theorem sha256_empty_vector :
    hexLower (sha256 []) =
      "e3b0c44298fc1c149afbf4c8996fb92427ae41e4649b934ca495991b7852b855" := by
  decide

/-- SHA-256 of the four bytes "abcd", a second independent test vector. -/
theorem sha256_abcd_vector :
    hexLower (sha256 [97, 98, 99, 100]) =
      "88d4266fd4e6338d13b845fcf289579d209c897823b9217da3e161936f031589" := by
  decide

/-- Fold invariance: a property preserved by every step holds of the fold. -/
theorem foldl_inv {α β : Type _} (f : α → β → α) (Q : α → Prop) :
    ∀ (l : List β), (∀ a b, b ∈ l → Q a → Q (f a b)) → ∀ a, Q a → Q (l.foldl f a)
  | [], _, _, h => h
  | x :: xs, step, a, h =>
      foldl_inv f Q xs (fun a' b hb => step a' b (List.mem_cons_of_mem _ hb)) _
        (step a x (List.mem_cons_self _ _) h)

/-- The destination-side update never changes any filename. -/
theorem update_hash_new_filenames (t : Table) (f d : String) :
    (update_hash_new t f d).map (·.filename) = t.map (·.filename) := by
  unfold update_hash_new
  rw [List.map_map]
  exact List.map_congr_left fun e _ => by
    by_cases h : e.filename = f <;> simp [Function.comp, h]

/-- The source-side update never changes any filename. -/
theorem update_hash_old_filenames (t : Table) (f d : String) :
    (update_hash_old t f d).map (·.filename) = t.map (·.filename) := by
  unfold update_hash_old
  rw [List.map_map]
  exact List.map_congr_left fun e _ => by
    by_cases h : e.filename = f <;> simp [Function.comp, h]

/-- One destination-side worker iteration never changes any filename. -/
theorem hash_new_step_filenames (w : World) (c : Config) (t : Table) (f : String) :
    (hash_new_step w c t f).map (·.filename) = t.map (·.filename) := by
  cases hfa : w.fs_new (c.new_path ++ "/" ++ f) with
  | openFail => simp [hash_new_step, hfa]
  | readFail => simp [hash_new_step, hfa]
  | ok bytes =>
      by_cases h : w.upd_ok_new f <;>
        simp [hash_new_step, hfa, h, update_hash_new_filenames]

/-- One source-side worker iteration never changes any filename. -/
theorem hash_old_step_filenames (w : World) (c : Config) (t : Table) (f : String) :
    (hash_old_step w c t f).map (·.filename) = t.map (·.filename) := by
  cases hfa : w.fs_old (c.old_path ++ "/" ++ f) with
  | openFail => simp [hash_old_step, hfa]
  | readFail => simp [hash_old_step, hfa]
  | ok bytes =>
      by_cases h : w.upd_ok_old f <;>
        simp [hash_old_step, hfa, h, update_hash_old_filenames]

/-- The destination-side hashing phase never changes the filename column. -/
theorem hash_new_file_filenames (w : World) (c : Config) (t : Table) (files : List String) :
    (hash_new_file w c t files).map (·.filename) = t.map (·.filename) :=
  foldl_inv _ (fun t' => t'.map (·.filename) = t.map (·.filename)) files
    (fun a b _ h => by dsimp only at h ⊢; rw [hash_new_step_filenames, h]) t rfl

/-- The source-side hashing phase never changes the filename column. -/
theorem hash_old_file_filenames (w : World) (c : Config) (t : Table) (files : List String) :
    (hash_old_file w c t files).map (·.filename) = t.map (·.filename) :=
  foldl_inv _ (fun t' => t'.map (·.filename) = t.map (·.filename)) files
    (fun a b _ h => by dsimp only at h ⊢; rw [hash_old_step_filenames, h]) t rfl

/-- Membership in the destination-side pending selection. -/
theorem mem_select_pending_new {P : ClauseSem} {c : Config} {t : Table} {f : String} :
    f ∈ select_pending_new P c t ↔
      ∃ e ∈ t, e.filename = f ∧ e.hash_new = none ∧ passes_filter P c e = true := by
  unfold select_pending_new
  simp only [List.mem_map, List.mem_filter, Bool.and_eq_true, Option.isNone_iff_eq_none]
  constructor
  · rintro ⟨e, ⟨he, hn, hp⟩, rfl⟩; exact ⟨e, he, rfl, hn, hp⟩
  · rintro ⟨e, he, rfl, hn, hp⟩; exact ⟨e, ⟨he, hn, hp⟩, rfl⟩

/-- Membership in the source-side pending selection. -/
theorem mem_select_pending_old {P : ClauseSem} {c : Config} {t : Table} {f : String} :
    f ∈ select_pending_old P c t ↔
      ∃ e ∈ t, e.filename = f ∧ e.hash_old = none ∧ passes_filter P c e = true := by
  unfold select_pending_old
  simp only [List.mem_map, List.mem_filter, Bool.and_eq_true, Option.isNone_iff_eq_none]
  constructor
  · rintro ⟨e, ⟨he, hn, hp⟩, rfl⟩; exact ⟨e, he, rfl, hn, hp⟩
  · rintro ⟨e, he, rfl, hn, hp⟩; exact ⟨e, ⟨he, hn, hp⟩, rfl⟩

/-- With distinct filenames, a filename determines its row. -/
theorem table_filename_inj {t : Table} (h : (t.map (·.filename)).Nodup) :
    ∀ e1 ∈ t, ∀ e2 ∈ t, e1.filename = e2.filename → e1 = e2 :=
  fun _ h1 _ h2 he => List.inj_on_of_nodup_map h h1 h2 he

/-- C8 counterexample: the worker-pool degree is the same for any two
configurations — no configuration can change it, so it is not configurable;
it is the hardcoded literal 8. -/
theorem C8_counterexample :
    hash_threads ⟨"a", "b", "c", "d", "e", 1, 2⟩ = 8 ∧
    hash_threads ⟨"v", "w", "x", "y", "z", 3, 4⟩ = 8 ∧
    (⟨"a", "b", "c", "d", "e", 1, 2⟩ : Config) ≠ ⟨"v", "w", "x", "y", "z", 3, 4⟩ ∧
    ¬ ∃ c : Config, hash_threads c ≠ 8 :=
  ⟨rfl, rfl, by decide, fun ⟨_, h⟩ => h rfl⟩

/-- C8 (amended): each hashing phase runs a fixed-size pool of exactly 8
workers — hardcoded, not configurable — draining one shared bounded queue
whose capacity equals the pool size. -/
theorem C8_pool_and_queue :
    ∀ c : Config, hash_threads c = 8 ∧ to_hash_capacity c = hash_threads c :=
  fun _ => ⟨rfl, rfl⟩

/-- C9 counterexample: on the error callback with a nil file info (the walk
root could not be stat'd) the callback panics instead of not crashing; and on
a directory read error (valid info, non-nil error) the callback returns nil —
the error is swallowed, not surfaced as fatal. -/
theorem C9_counterexample :
    visit "/data" "/data" none (some "permission denied") = .panicked ∧
    visit "/data" "/data" (some dirInfo9) (some "permission denied") = .ok [] [] false :=
  ⟨rfl, by decide⟩

/-- C9 (amended): a directory whose contents cannot be read is treated as
empty (nothing staged, nothing enqueued) and the error is silently discarded
— the callback returns nil and `walk_dir` drops the walk's return value — so
no traversal error reaches the enumeration transaction; and whenever the
callback receives a nil file info it dereferences it and panics. -/
theorem C9_error_callback (dir path e : String) (i : GoFileInfo)
    (hreg : i.isRegular = false) :
    visit dir path none (some e) = .panicked ∧
    visit dir dir (some i) (some e) = .ok [] [] false := by
  refine ⟨rfl, ?_⟩
  simp [visit, hreg]

/-- Witness for `C9_error_callback` at a concrete directory info. -/
theorem C9_error_callback_witness :
    visit "/a" "/b" none (some "eacces") = .panicked ∧
    visit "/a" "/a" (some dirInfo9) (some "eacces") = .ok [] [] false :=
  C9_error_callback "/a" "/b" "eacces" dirInfo9 rfl

/-- C3: when the ledger already holds rows, enumeration is skipped and the
whole pipeline inserts no rows — the filename column (with its multiplicity
and order) is exactly that of the starting table, so a second run creates no
duplicates and preserves filename uniqueness. -/
theorem C3_skip_enumeration (w : World) (P : ClauseSem) (c : Config) (tree : FsNode)
    (t : Table) (h : 0 < t.length) :
    enumerate c tree t = t ∧
    (run_pipeline w P c tree t).map (·.filename) = t.map (·.filename) ∧
    (run_pipeline w P c tree t).length = t.length ∧
    ((t.map (·.filename)).Nodup → ((run_pipeline w P c tree t).map (·.filename)).Nodup) := by
  have henum : enumerate c tree t = t := by
    unfold enumerate
    rw [if_neg]
    omega
  have hmap : (run_pipeline w P c tree t).map (·.filename) = t.map (·.filename) := by
    unfold run_pipeline
    rw [henum, hash_old_file_filenames, hash_new_file_filenames]
  refine ⟨henum, hmap, ?_, fun hn => hmap ▸ hn⟩
  have hlen := congrArg List.length hmap
  simpa using hlen

/-- Witness for `C3_skip_enumeration` on a one-row table. -/
theorem C3_skip_enumeration_witness :
    0 < tbl3.length ∧ enumerate cfgHash treeEmpty tbl3 = tbl3 ∧
    (run_pipeline wld3 semAll cfgHash treeEmpty tbl3).map (·.filename) =
      tbl3.map (·.filename) :=
  ⟨by decide, (C3_skip_enumeration wld3 semAll cfgHash treeEmpty tbl3 (by decide)).1,
   (C3_skip_enumeration wld3 semAll cfgHash treeEmpty tbl3 (by decide)).2.1⟩

/-- C4: a per-item failure in either hashing phase — open failure, mid-read
failure, or update failure — leaves the table untouched for that item, the
worker continues with the rest of the queue, and the affected rows (any null
row passing the filter) are still selected as pending afterwards. -/
theorem C4_per_item_failure (w : World) (P : ClauseSem) (c : Config) (t : Table)
    (fNew fOld : String) (restNew restOld : List String)
    (hNew : w.fs_new (c.new_path ++ "/" ++ fNew) = .openFail ∨
      w.fs_new (c.new_path ++ "/" ++ fNew) = .readFail ∨ w.upd_ok_new fNew = false)
    (hOld : w.fs_old (c.old_path ++ "/" ++ fOld) = .openFail ∨
      w.fs_old (c.old_path ++ "/" ++ fOld) = .readFail ∨ w.upd_ok_old fOld = false) :
    hash_new_step w c t fNew = t ∧
    hash_new_file w c t (fNew :: restNew) = hash_new_file w c t restNew ∧
    hash_old_step w c t fOld = t ∧
    hash_old_file w c t (fOld :: restOld) = hash_old_file w c t restOld ∧
    (∀ e ∈ t, e.hash_new = none → passes_filter P c e = true →
      e.filename ∈ select_pending_new P c (hash_new_step w c t fNew)) ∧
    (∀ e ∈ t, e.hash_old = none → passes_filter P c e = true →
      e.filename ∈ select_pending_old P c (hash_old_step w c t fOld)) := by
  have hstepN : hash_new_step w c t fNew = t := by
    rcases hNew with h | h | h
    · simp [hash_new_step, h]
    · simp [hash_new_step, h]
    · cases hfa : w.fs_new (c.new_path ++ "/" ++ fNew) with
      | openFail => simp [hash_new_step, hfa]
      | readFail => simp [hash_new_step, hfa]
      | ok bytes => simp [hash_new_step, hfa, h]
  have hstepO : hash_old_step w c t fOld = t := by
    rcases hOld with h | h | h
    · simp [hash_old_step, h]
    · simp [hash_old_step, h]
    · cases hfa : w.fs_old (c.old_path ++ "/" ++ fOld) with
      | openFail => simp [hash_old_step, hfa]
      | readFail => simp [hash_old_step, hfa]
      | ok bytes => simp [hash_old_step, hfa, h]
  refine ⟨hstepN, ?_, hstepO, ?_, ?_, ?_⟩
  · show (fNew :: restNew).foldl (hash_new_step w c) t = _
    rw [List.foldl_cons, hstepN]
    rfl
  · show (fOld :: restOld).foldl (hash_old_step w c) t = _
    rw [List.foldl_cons, hstepO]
    rfl
  · intro e he hn hp
    rw [hstepN]
    exact mem_select_pending_new.mpr ⟨e, he, rfl, hn, hp⟩
  · intro e he hn hp
    rw [hstepO]
    exact mem_select_pending_old.mpr ⟨e, he, rfl, hn, hp⟩

/-- Witness for `C4_per_item_failure` with a failing open on both sides. -/
theorem C4_per_item_failure_witness :
    hash_new_step wld4 cfgHash tbl4 "a" = tbl4 ∧
    hash_old_step wld4 cfgHash tbl4 "a" = tbl4 :=
  ⟨(C4_per_item_failure wld4 semAll cfgHash tbl4 "a" "a" [] [] (Or.inl rfl) (Or.inl rfl)).1,
   (C4_per_item_failure wld4 semAll cfgHash tbl4 "a" "a" [] [] (Or.inl rfl) (Or.inl rfl)).2.2.1⟩

/-- An aborted staging sequence leaves the committed table untouched: staging
only ever appends to the transaction buffer. -/
theorem tx_stage_all_error {flt : TxFaults} :
    ∀ (rows : List Entry) (idx : Nat) (s s' : TxState),
      tx_stage_all flt rows idx s = .error s' → s'.committed = s.committed := by
  intro rows
  induction rows with
  | nil =>
      intro idx s s' h
      simp [tx_stage_all] at h
  | cons r rs ih =>
      intro idx s s' h
      unfold tx_stage_all tx_stage at h
      by_cases hf : flt.stage_fail = some idx
      · rw [if_pos hf] at h
        simp only at h
        injection h with h
        rw [← h]
      · rw [if_neg hf] at h
        simp only at h
        exact ih (idx + 1) ⟨s.committed, s.buffer ++ [r]⟩ s' h

/-- A successful staging sequence leaves the committed table untouched and
appends exactly the staged rows to the buffer. -/
theorem tx_stage_all_ok {flt : TxFaults} :
    ∀ (rows : List Entry) (idx : Nat) (s s' : TxState),
      tx_stage_all flt rows idx s = .ok s' →
        s'.committed = s.committed ∧ s'.buffer = s.buffer ++ rows := by
  intro rows
  induction rows with
  | nil =>
      intro idx s s' h
      simp only [tx_stage_all] at h
      injection h with h
      rw [← h]
      exact ⟨rfl, by simp⟩
  | cons r rs ih =>
      intro idx s s' h
      unfold tx_stage_all tx_stage at h
      by_cases hf : flt.stage_fail = some idx
      · rw [if_pos hf] at h
        simp only at h
        cases h
      · rw [if_neg hf] at h
        simp only at h
        obtain ⟨h1, h2⟩ := ih (idx + 1) _ s' h
        refine ⟨h1, ?_⟩
        rw [h2]
        simp

/-- Without staging faults, staging succeeds and buffers every row. -/
theorem tx_stage_all_none {flt : TxFaults} (hf : flt.stage_fail = none) :
    ∀ (rows : List Entry) (idx : Nat) (s : TxState),
      tx_stage_all flt rows idx s = .ok ⟨s.committed, s.buffer ++ rows⟩ := by
  intro rows
  induction rows with
  | nil => intro idx s; simp [tx_stage_all]
  | cons r rs ih =>
      intro idx s
      unfold tx_stage_all tx_stage
      rw [if_neg (by rw [hf]; exact fun h => Option.noConfusion h)]
      simp only
      rw [ih (idx + 1)]
      simp

/-- C7: the enumeration ledger writes all happen inside one transaction that
commits only after the walk has drained: an aborted run leaves the ledger
exactly as it was, a completed run either skipped enumeration or appended all
staged rows, and the fault-free transaction computes precisely `enumerate`. -/
theorem C7_enumeration_transaction (flt : TxFaults) (c : Config) (tree : FsNode) (t : Table) :
    (∀ t', enumerate_txn flt c tree t = .error t' → t' = t) ∧
    (∀ t', enumerate_txn flt c tree t = .ok t' → t' = t ∨ t' = t ++ staged_rows c tree) ∧
    enumerate_txn ⟨false, none, false, false⟩ c tree t = .ok (enumerate c tree t) := by
  refine ⟨?_, ?_, ?_⟩
  · intro t' h
    unfold enumerate_txn at h
    by_cases hlen : t.length = 0
    · rw [if_pos hlen] at h
      by_cases hb : flt.begin_fail
      · rw [if_pos (by simpa using hb)] at h
        injection h with h
        exact h.symm
      · rw [if_neg (by simpa using hb)] at h
        cases hr : tx_stage_all flt (staged_rows c tree) 0 ⟨t, []⟩ with
        | error s =>
            simp only [hr] at h
            injection h with h
            rw [← h]
            exact tx_stage_all_error _ _ _ _ hr
        | ok s =>
            simp only [hr] at h
            by_cases hfl : flt.flush_fail
            · rw [if_pos (by simpa using hfl)] at h
              injection h with h
              rw [← h]
              exact (tx_stage_all_ok _ _ _ _ hr).1
            · rw [if_neg (by simpa using hfl)] at h
              by_cases hcm : flt.commit_fail
              · rw [if_pos (by simpa using hcm)] at h
                injection h with h
                rw [← h]
                exact (tx_stage_all_ok _ _ _ _ hr).1
              · rw [if_neg (by simpa using hcm)] at h
                cases h
    · rw [if_neg hlen] at h
      cases h
  · intro t' h
    unfold enumerate_txn at h
    by_cases hlen : t.length = 0
    · rw [if_pos hlen] at h
      by_cases hb : flt.begin_fail
      · rw [if_pos (by simpa using hb)] at h
        cases h
      · rw [if_neg (by simpa using hb)] at h
        cases hr : tx_stage_all flt (staged_rows c tree) 0 ⟨t, []⟩ with
        | error s =>
            simp only [hr] at h
            cases h
        | ok s =>
            simp only [hr] at h
            by_cases hfl : flt.flush_fail
            · rw [if_pos (by simpa using hfl)] at h
              cases h
            · rw [if_neg (by simpa using hfl)] at h
              by_cases hcm : flt.commit_fail
              · rw [if_pos (by simpa using hcm)] at h
                cases h
              · rw [if_neg (by simpa using hcm)] at h
                injection h with h
                obtain ⟨h1, h2⟩ := tx_stage_all_ok _ _ _ _ hr
                right
                rw [← h, h1, h2]
                simp
    · rw [if_neg hlen] at h
      injection h with h
      exact Or.inl h.symm
  · unfold enumerate_txn enumerate
    by_cases hlen : t.length = 0
    · rw [if_pos hlen, if_pos hlen]
      rw [if_neg (by exact fun h => Bool.noConfusion h)]
      rw [tx_stage_all_none rfl]
      simp
    · rw [if_neg hlen, if_neg hlen]

/-- Witness for `C7_enumeration_transaction`: with a staging fault on an empty
ledger the transaction aborts and the ledger stays empty. -/
theorem C7_enumeration_transaction_witness :
    enumerate_txn flt7 cfgHash tree7 [] = .error [] ∧ ([] : Table) = [] :=
  ⟨rfl, (C7_enumeration_transaction flt7 cfgHash tree7 []).1 [] rfl⟩

/-- One destination-side worker iteration keeps each row position, keeps its
filename, and never turns a present hash absent. -/
theorem hash_new_step_mono (w : World) (c : Config) (a : Table) (b : String)
    (i : Nat) (e0 : Entry)
    (h : ∃ e', a[i]? = some e' ∧ e'.filename = e0.filename ∧
      (e0.hash_new.isSome = true → e'.hash_new.isSome = true) ∧
      (e0.hash_old.isSome = true → e'.hash_old.isSome = true)) :
    ∃ e', (hash_new_step w c a b)[i]? = some e' ∧ e'.filename = e0.filename ∧
      (e0.hash_new.isSome = true → e'.hash_new.isSome = true) ∧
      (e0.hash_old.isSome = true → e'.hash_old.isSome = true) := by
  obtain ⟨e', hi, hf, hn, ho⟩ := h
  cases hfa : w.fs_new (c.new_path ++ "/" ++ b) with
  | openFail => exact ⟨e', by simp [hash_new_step, hfa, hi], hf, hn, ho⟩
  | readFail => exact ⟨e', by simp [hash_new_step, hfa, hi], hf, hn, ho⟩
  | ok bytes =>
      by_cases hu : w.upd_ok_new b
      · refine ⟨if e'.filename = b then { e' with hash_new := some (hexLower (sha256 bytes)) } else e', ?_, ?_, ?_, ?_⟩
        · simp [hash_new_step, hfa, hu, update_hash_new, List.getElem?_map, hi]
        · by_cases hb : e'.filename = b
          · rw [if_pos hb]; exact hf
          · rw [if_neg hb]; exact hf
        · by_cases hb : e'.filename = b
          · rw [if_pos hb]; intro _; rfl
          · rw [if_neg hb]; exact hn
        · by_cases hb : e'.filename = b
          · rw [if_pos hb]; exact ho
          · rw [if_neg hb]; exact ho
      · exact ⟨e', by simp [hash_new_step, hfa, hu, hi], hf, hn, ho⟩

/-- One source-side worker iteration keeps each row position, keeps its
filename, and never turns a present hash absent. -/
theorem hash_old_step_mono (w : World) (c : Config) (a : Table) (b : String)
    (i : Nat) (e0 : Entry)
    (h : ∃ e', a[i]? = some e' ∧ e'.filename = e0.filename ∧
      (e0.hash_new.isSome = true → e'.hash_new.isSome = true) ∧
      (e0.hash_old.isSome = true → e'.hash_old.isSome = true)) :
    ∃ e', (hash_old_step w c a b)[i]? = some e' ∧ e'.filename = e0.filename ∧
      (e0.hash_new.isSome = true → e'.hash_new.isSome = true) ∧
      (e0.hash_old.isSome = true → e'.hash_old.isSome = true) := by
  obtain ⟨e', hi, hf, hn, ho⟩ := h
  cases hfa : w.fs_old (c.old_path ++ "/" ++ b) with
  | openFail => exact ⟨e', by simp [hash_old_step, hfa, hi], hf, hn, ho⟩
  | readFail => exact ⟨e', by simp [hash_old_step, hfa, hi], hf, hn, ho⟩
  | ok bytes =>
      by_cases hu : w.upd_ok_old b
      · refine ⟨if e'.filename = b then { e' with hash_old := some (hexLower (sha256 bytes)) } else e', ?_, ?_, ?_, ?_⟩
        · simp [hash_old_step, hfa, hu, update_hash_old, List.getElem?_map, hi]
        · by_cases hb : e'.filename = b
          · rw [if_pos hb]; exact hf
          · rw [if_neg hb]; exact hf
        · by_cases hb : e'.filename = b
          · rw [if_pos hb]; exact hn
          · rw [if_neg hb]; exact hn
        · by_cases hb : e'.filename = b
          · rw [if_pos hb]; intro _; rfl
          · rw [if_neg hb]; exact ho
      · exact ⟨e', by simp [hash_old_step, hfa, hu, hi], hf, hn, ho⟩

/-- C6 (amended): every hash write is a point update keyed by filename that
unconditionally sets that side's hash column — to a non-null digest — on
every row whose filename matches, with no "only if currently null" guard; and
no pipeline operation ever resets a non-null hash column to null. -/
theorem C6_point_updates (w : World) (P : ClauseSem) (c : Config) (tree : FsNode)
    (t : Table) :
    (∀ (f d : String) (i : Nat) (e : Entry), t[i]? = some e →
      (update_hash_new t f d)[i]? =
        some (if e.filename = f then { e with hash_new := some d } else e) ∧
      (update_hash_old t f d)[i]? =
        some (if e.filename = f then { e with hash_old := some d } else e)) ∧
    (∀ (i : Nat) (e : Entry), t[i]? = some e →
      ∃ e', (run_pipeline w P c tree t)[i]? = some e' ∧ e'.filename = e.filename ∧
        (e.hash_new.isSome = true → e'.hash_new.isSome = true) ∧
        (e.hash_old.isSome = true → e'.hash_old.isSome = true)) := by
  constructor
  · intro f d i e hi
    constructor
    · simp [update_hash_new, List.getElem?_map, hi]
    · simp [update_hash_old, List.getElem?_map, hi]
  · intro i e hi
    have henum : enumerate c tree t = t := by
      unfold enumerate
      by_cases hlen : t.length = 0
      · rw [List.length_eq_zero] at hlen
        subst hlen
        simp at hi
      · rw [if_neg hlen]
    unfold run_pipeline
    rw [henum]
    apply foldl_inv _ (fun t' => ∃ e', t'[i]? = some e' ∧ e'.filename = e.filename ∧
      (e.hash_new.isSome = true → e'.hash_new.isSome = true) ∧
      (e.hash_old.isSome = true → e'.hash_old.isSome = true)) _
      (fun a b _ ha => hash_old_step_mono w c a b i e ha)
    apply foldl_inv _ _ _ (fun a b _ ha => hash_new_step_mono w c a b i e ha)
    exact ⟨e, hi, rfl, fun x => x, fun x => x⟩

/-- Witness for `C6_point_updates` on a concrete two-row table. -/
theorem C6_point_updates_witness :
    (update_hash_new tbl6 "a" "dd")[1]? =
      some { filename := "a", size := 2, changed := 0, hash_new := some "dd", hash_old := none } :=
  by
    have h := (C6_point_updates wld6 semAll cfgHash treeEmpty tbl6).1 "a" "dd" 1
      { filename := "a", size := 2, changed := 0, hash_new := some "ff", hash_old := none } rfl
    rw [h.1]
    rfl

/-- C6 counterexample: on a ledger holding two rows that share a filename —
nothing in the store prevents this — the destination hashing phase, driven by
its own pending selection, overwrites the row whose `hash_new` was already
non-null: the write is not guarded by "only when currently null". -/
theorem C6_counterexample :
    tbl6[1]?.map (·.hash_new) = some (some "ff") ∧
    (hash_new_file wld6 cfgHash tbl6 (select_pending_new semAll cfgHash tbl6))[1]?.map (·.hash_new) =
      some (some "e3b0c44298fc1c149afbf4c8996fb92427ae41e4649b934ca495991b7852b855") ∧
    ("ff" : String) ≠ "e3b0c44298fc1c149afbf4c8996fb92427ae41e4649b934ca495991b7852b855" := by
  exact ⟨rfl, by decide, by decide⟩

/-- Every hexadecimal digit emitted by `hexDigit` on a value below 16 is a
lowercase hex character. -/
theorem hexDigit_mem_lower : ∀ n, n < 16 → hexDigit n ∈ ("0123456789abcdef").data := by
  decide

/-- Every character of a `%x` rendering is a lowercase hex character. -/
theorem hexLower_chars (bytes : List Nat) :
    ∀ ch ∈ (hexLower bytes).data, ch ∈ ("0123456789abcdef").data := by
  intro ch hch
  obtain ⟨b, _, hmem⟩ := List.mem_flatMap.mp hch
  have h16a : b / 16 % 16 < 16 := Nat.mod_lt _ (by omega)
  have h16b : b % 16 < 16 := Nat.mod_lt _ (by omega)
  rcases List.mem_cons.mp hmem with h | h
  · rw [h]; exact hexDigit_mem_lower _ h16a
  · rcases List.mem_cons.mp h with h' | h'
    · rw [h']; exact hexDigit_mem_lower _ h16b
    · cases h'

/-- One destination-side worker iteration preserves the hash invariant: the
only hash it writes is the digest of the file it just read under the
destination root joined with the row's filename. -/
theorem hash_new_step_inv (w : World) (c : Config) {t : Table}
    (hinv : HashInv w c t) (f : String) : HashInv w c (hash_new_step w c t f) := by
  cases hfa : w.fs_new (c.new_path ++ "/" ++ f) with
  | openFail => simpa [hash_new_step, hfa] using hinv
  | readFail => simpa [hash_new_step, hfa] using hinv
  | ok bytes =>
      by_cases hu : w.upd_ok_new f
      · simp only [hash_new_step, hfa, hu, if_true]
        intro e' he'
        obtain ⟨e, he, hge⟩ := List.mem_map.mp he'
        obtain ⟨gn, go⟩ := hinv e he
        by_cases hb : e.filename = f
        · rw [if_pos hb] at hge
          subst hge
          constructor
          · intro d hd
            simp only at hd
            injection hd with hd
            subst hd
            refine ⟨bytes, ?_, rfl⟩
            show w.fs_new (c.new_path ++ "/" ++ e.filename) = _
            rw [hb]
            exact hfa
          · intro d hd
            exact go d hd
        · rw [if_neg hb] at hge
          subst hge
          exact ⟨gn, go⟩
      · simpa [hash_new_step, hfa, hu] using hinv

/-- One source-side worker iteration preserves the hash invariant. -/
theorem hash_old_step_inv (w : World) (c : Config) {t : Table}
    (hinv : HashInv w c t) (f : String) : HashInv w c (hash_old_step w c t f) := by
  cases hfa : w.fs_old (c.old_path ++ "/" ++ f) with
  | openFail => simpa [hash_old_step, hfa] using hinv
  | readFail => simpa [hash_old_step, hfa] using hinv
  | ok bytes =>
      by_cases hu : w.upd_ok_old f
      · simp only [hash_old_step, hfa, hu, if_true]
        intro e' he'
        obtain ⟨e, he, hge⟩ := List.mem_map.mp he'
        obtain ⟨gn, go⟩ := hinv e he
        by_cases hb : e.filename = f
        · rw [if_pos hb] at hge
          subst hge
          constructor
          · intro d hd
            exact gn d hd
          · intro d hd
            simp only at hd
            injection hd with hd
            subst hd
            refine ⟨bytes, ?_, rfl⟩
            show w.fs_old (c.old_path ++ "/" ++ e.filename) = _
            rw [hb]
            exact hfa
        · rw [if_neg hb] at hge
          subst hge
          exact ⟨gn, go⟩
      · simpa [hash_old_step, hfa, hu] using hinv

/-- Enumeration preserves the hash invariant: it only ever appends rows whose
hash columns are both null. -/
theorem enumerate_inv (w : World) (c : Config) (tree : FsNode) {t : Table}
    (hinv : HashInv w c t) : HashInv w c (enumerate c tree t) := by
  unfold enumerate
  by_cases hlen : t.length = 0
  · rw [if_pos hlen]
    intro e he
    rcases List.mem_append.mp he with h | h
    · exact hinv e h
    · obtain ⟨r, _, hre⟩ := List.mem_map.mp h
      subst hre
      exact ⟨fun d hd => Option.noConfusion hd, fun d hd => Option.noConfusion hd⟩
  · rw [if_neg hlen]
    exact hinv

/-- C1: if every stored hash is the lowercase-hex SHA-256 digest of the full
contents of the corresponding file, then after a complete pipeline run this is
still true of every row — in particular it holds for any run started from an
empty or freshly-enumerated ledger; and every digest the pipeline renders
consists solely of lowercase hexadecimal characters. -/
theorem C1_hash_correctness (w : World) (P : ClauseSem) (c : Config) (tree : FsNode)
    (t : Table) (h : HashInv w c t) :
    HashInv w c (run_pipeline w P c tree t) ∧
    ∀ (bytes : List Nat), ∀ ch ∈ (hexLower bytes).data, ch ∈ ("0123456789abcdef").data := by
  refine ⟨?_, fun bytes => hexLower_chars bytes⟩
  unfold run_pipeline
  apply foldl_inv _ (HashInv w c) _ (fun a b _ ha => hash_old_step_inv w c ha b)
  apply foldl_inv _ (HashInv w c) _ (fun a b _ ha => hash_new_step_inv w c ha b)
  exact enumerate_inv w c tree h

/-- Witness for `C1_hash_correctness`: a full run from the empty ledger over a
one-file tree satisfies the hash invariant. -/
theorem C1_hash_correctness_witness :
    HashInv wld1 cfg1 (run_pipeline wld1 semAll cfg1 tree1 []) :=
  (C1_hash_correctness wld1 semAll cfg1 tree1 []
    (fun e he => absurd he (List.not_mem_nil e))).1

/-- Unfolding `undouble` past a doubled quote. -/
theorem undouble_cons_quote (l : List Char) :
    undouble ('"' :: '"' :: l) = (undouble l).map (fun r => '"' :: r) := rfl

/-- Unfolding `undouble` past an ordinary character. -/
theorem undouble_cons_ne (c : Char) (h : c ≠ '"') (l : List Char) :
    undouble (c :: l) = (undouble l).map (fun r => c :: r) := by
  rw [undouble.eq_def]
  simp only []
  rw [if_neg h]

/-- Quote doubling round-trips through `undouble`. -/
theorem undouble_double (l : List Char) :
    undouble (l.flatMap fun ch => if ch = '"' then ['"', '"'] else [ch]) = some l := by
  induction l with
  | nil => rfl
  | cons c cs ih =>
      by_cases h : c = '"'
      · subst h
        rw [List.flatMap_cons, if_pos rfl]
        show undouble ('"' :: '"' :: cs.flatMap fun ch => if ch = '"' then ['"', '"'] else [ch]) =
          some ('"' :: cs)
        rw [undouble_cons_quote, ih]
        rfl
      · rw [List.flatMap_cons, if_neg h]
        show undouble (c :: cs.flatMap fun ch => if ch = '"' then ['"', '"'] else [ch]) =
          some (c :: cs)
        rw [undouble_cons_ne c h, ih]
        rfl

/-- The character data of a quoted identifier: an opening quote, the doubled
body, a closing quote. -/
theorem quoteIdentifier_data (name : String) (h : Char.ofNat 0 ∉ name.data) :
    (quoteIdentifier name).data =
      '"' :: ((name.data.flatMap fun ch => if ch = '"' then ['"', '"'] else [ch]) ++ ['"']) := by
  have htake : name.data.takeWhile (fun ch => ch ≠ Char.ofNat 0) = name.data := by
    rw [List.takeWhile_eq_self_iff]
    intro a ha
    simp only [ne_eq, decide_not, Bool.not_eq_true']
    exact decide_eq_false (fun he => h (he ▸ ha))
  unfold quoteIdentifier
  simp only [htake, String.data_append]
  rfl

/-- PostgreSQL reads back from `pq.QuoteIdentifier` exactly the identifier it
was given (absent NUL truncation). -/
theorem quotedReferent_quoteIdentifier (name : String) (h : Char.ofNat 0 ∉ name.data) :
    quotedReferent (quoteIdentifier name) = some name := by
  unfold quotedReferent
  rw [quoteIdentifier_data name h]
  simp [List.getLast?_concat, List.dropLast_concat, undouble_double]

/-- C10: the table name is interpolated quoted into the create-table,
row-count and bulk-insert statements but raw into the two pending selects and
the two hash updates; whenever the name requires quoting, the quoted
occurrences reference the table of exactly that name while the raw
occurrences do not, so the five query kinds do not all reference one table. -/
theorem C10_table_name_quoting (c : Config)
    (hnul : Char.ofNat 0 ∉ c.table_name.data)
    (hneed : needsQuoting c.table_name) :
    (∃ s, create_table_query c =
      "create table if not exists " ++ quoteIdentifier c.table_name ++ s) ∧
    (∃ s, count_query c = s ++ quoteIdentifier c.table_name) ∧
    (∃ s r, copy_in_stmt c = s ++ quoteIdentifier c.table_name ++ r) ∧
    (∃ s r, select_new_query c = s ++ c.table_name ++ r) ∧
    (∃ s r, select_old_query c = s ++ c.table_name ++ r) ∧
    (∃ s r, update_new_query c = s ++ c.table_name ++ r) ∧
    (∃ s r, update_old_query c = s ++ c.table_name ++ r) ∧
    identReferent (quoteIdentifier c.table_name) = some c.table_name ∧
    identReferent c.table_name ≠ some c.table_name := by
  refine ⟨⟨_, rfl⟩, ⟨_, rfl⟩, ⟨"COPY ", _, rfl⟩, ?_, ?_, ?_, ?_, ?_, hneed⟩
  · exact ⟨"select filename from ",
      " where hash_new is null" ++ (if c.where_clause = "" then "" else " and " ++ c.where_clause),
      by simp [select_new_query, String.append_assoc]⟩
  · exact ⟨"select filename from ",
      " where hash_old is null" ++ (if c.where_clause = "" then "" else " and " ++ c.where_clause),
      by simp [select_old_query, String.append_assoc]⟩
  · exact ⟨"update ", " set hash_new = $2 where filename = $1", rfl⟩
  · exact ⟨"update ", " set hash_old = $2 where filename = $1", rfl⟩
  · unfold identReferent
    rw [if_pos (by rw [quoteIdentifier_data _ hnul]; rfl)]
    exact quotedReferent_quoteIdentifier _ hnul

/-- Witness for `C10_table_name_quoting` at the mixed-case name `MyTable`:
the quoted occurrences reference `MyTable`, the raw occurrences reference
`mytable`. -/
theorem C10_table_name_quoting_witness :
    identReferent (quoteIdentifier "MyTable") = some "MyTable" ∧
    identReferent "MyTable" ≠ some "MyTable" :=
  ⟨(C10_table_name_quoting ⟨"/d", "/s", "", "MyTable", "", 1, 1⟩
      (by decide) (by show identReferent "MyTable" ≠ some "MyTable"; decide)).2.2.2.2.2.2.2.1,
   (C10_table_name_quoting ⟨"/d", "/s", "", "MyTable", "", 1, 1⟩
      (by decide) (by show identReferent "MyTable" ≠ some "MyTable"; decide)).2.2.2.2.2.2.2.2⟩

/-- The boolean filter condition matches the claim's reading: empty clause
means no restriction, otherwise the clause's semantics. -/
theorem passes_filter_iff {P : ClauseSem} {c : Config} {e : Entry} :
    passes_filter P c e = true ↔ (c.where_clause = "" ∨ P c.where_clause e = true) := by
  simp [passes_filter, Bool.or_eq_true, decide_eq_true_eq]

/-- On a fully successful item, the destination-side worker iteration is
exactly the point update with the file's digest. -/
theorem hash_new_step_success (w : World) (c : Config) (t : Table) (f : String)
    (h : new_ok w c f = true) :
    hash_new_step w c t f = update_hash_new t f (new_digest w c f) := by
  unfold new_ok at h
  cases hfa : w.fs_new (c.new_path ++ "/" ++ f) with
  | openFail => rw [hfa] at h; simp at h
  | readFail => rw [hfa] at h; simp at h
  | ok bytes =>
      rw [hfa] at h
      simp only [Bool.true_and] at h
      simp [hash_new_step, hfa, h, new_digest]

/-- On a fully successful item, the source-side worker iteration is exactly
the point update with the file's digest. -/
theorem hash_old_step_success (w : World) (c : Config) (t : Table) (f : String)
    (h : old_ok w c f = true) :
    hash_old_step w c t f = update_hash_old t f (old_digest w c f) := by
  unfold old_ok at h
  cases hfa : w.fs_old (c.old_path ++ "/" ++ f) with
  | openFail => rw [hfa] at h; simp at h
  | readFail => rw [hfa] at h; simp at h
  | ok bytes =>
      rw [hfa] at h
      simp only [Bool.true_and] at h
      simp [hash_old_step, hfa, h, old_digest]

/-- Closed form of the destination-side phase on an all-successful queue: the
rows whose filename was queued get their digest, every other row is kept. -/
theorem hash_new_file_map (w : World) (c : Config) (fs : List String) :
    ∀ t : Table, (∀ f ∈ fs, new_ok w c f = true) →
      hash_new_file w c t fs =
        t.map fun e =>
          if e.filename ∈ fs then { e with hash_new := some (new_digest w c e.filename) } else e := by
  induction fs with
  | nil =>
      intro t _
      simp [hash_new_file]
  | cons f fs ih =>
      intro t hok
      have hf : new_ok w c f = true := hok f (List.mem_cons_self f fs)
      have hstep : hash_new_file w c t (f :: fs) =
          hash_new_file w c (update_hash_new t f (new_digest w c f)) fs := by
        show (f :: fs).foldl (hash_new_step w c) t = _
        rw [List.foldl_cons, hash_new_step_success w c t f hf]
        rfl
      rw [hstep, ih _ (fun g hg => hok g (List.mem_cons_of_mem f hg))]
      unfold update_hash_new
      rw [List.map_map]
      apply List.map_congr_left
      intro e _
      by_cases h1 : e.filename = f
      · by_cases h2 : e.filename ∈ fs <;>
          simp [Function.comp, h1, h2, List.mem_cons]
      · by_cases h2 : e.filename ∈ fs <;>
          simp [Function.comp, h1, h2, List.mem_cons]

/-- Closed form of the source-side phase on an all-successful queue. -/
theorem hash_old_file_map (w : World) (c : Config) (fs : List String) :
    ∀ t : Table, (∀ f ∈ fs, old_ok w c f = true) →
      hash_old_file w c t fs =
        t.map fun e =>
          if e.filename ∈ fs then { e with hash_old := some (old_digest w c e.filename) } else e := by
  induction fs with
  | nil =>
      intro t _
      simp [hash_old_file]
  | cons f fs ih =>
      intro t hok
      have hf : old_ok w c f = true := hok f (List.mem_cons_self f fs)
      have hstep : hash_old_file w c t (f :: fs) =
          hash_old_file w c (update_hash_old t f (old_digest w c f)) fs := by
        show (f :: fs).foldl (hash_old_step w c) t = _
        rw [List.foldl_cons, hash_old_step_success w c t f hf]
        rfl
      rw [hstep, ih _ (fun g hg => hok g (List.mem_cons_of_mem f hg))]
      unfold update_hash_old
      rw [List.map_map]
      apply List.map_congr_left
      intro e _
      by_cases h1 : e.filename = f
      · by_cases h2 : e.filename ∈ fs <;>
          simp [Function.comp, h1, h2, List.mem_cons]
      · by_cases h2 : e.filename ∈ fs <;>
          simp [Function.comp, h1, h2, List.mem_cons]

/-- Setting `hash_new` on the rows named in `fs` removes exactly those names
from the destination-side pending selection. -/
theorem select_pending_new_after (P : ClauseSem) (c : Config) (t : Table)
    (fs : List String) (dg : String → String) :
    select_pending_new P c
        (t.map fun e => if e.filename ∈ fs then { e with hash_new := some (dg e.filename) } else e) =
      (select_pending_new P c t).filter fun f => decide (f ∉ fs) := by
  unfold select_pending_new
  rw [List.filter_map, List.map_map]
  conv_rhs => rw [List.filter_map, List.filter_filter]
  have hfil : List.filter
      ((fun e => e.hash_new.isNone && passes_filter P c e) ∘ fun e =>
        if e.filename ∈ fs then { e with hash_new := some (dg e.filename) } else e) t =
      List.filter (fun a =>
        ((fun f => decide (f ∉ fs)) ∘ fun e : Entry => e.filename) a &&
          (a.hash_new.isNone && passes_filter P c a)) t := by
    apply List.filter_congr
    intro e _
    by_cases hm : e.filename ∈ fs <;> simp [Function.comp, hm]
  rw [hfil]
  apply List.map_congr_left
  intro e _
  by_cases hm : e.filename ∈ fs <;> simp [Function.comp, hm]

/-- Setting `hash_old` on the rows named in `fs` removes exactly those names
from the source-side pending selection. -/
theorem select_pending_old_after (P : ClauseSem) (c : Config) (t : Table)
    (fs : List String) (dg : String → String) :
    select_pending_old P c
        (t.map fun e => if e.filename ∈ fs then { e with hash_old := some (dg e.filename) } else e) =
      (select_pending_old P c t).filter fun f => decide (f ∉ fs) := by
  unfold select_pending_old
  rw [List.filter_map, List.map_map]
  conv_rhs => rw [List.filter_map, List.filter_filter]
  have hfil : List.filter
      ((fun e => e.hash_old.isNone && passes_filter P c e) ∘ fun e =>
        if e.filename ∈ fs then { e with hash_old := some (dg e.filename) } else e) t =
      List.filter (fun a =>
        ((fun f => decide (f ∉ fs)) ∘ fun e : Entry => e.filename) a &&
          (a.hash_old.isNone && passes_filter P c a)) t := by
    apply List.filter_congr
    intro e _
    by_cases hm : e.filename ∈ fs <;> simp [Function.comp, hm]
  rw [hfil]
  apply List.map_congr_left
  intro e _
  by_cases hm : e.filename ∈ fs <;> simp [Function.comp, hm]

/-- With distinct filenames, the pending selections carry no duplicates. -/
theorem select_pending_new_nodup (P : ClauseSem) (c : Config) {t : Table}
    (h : (t.map (·.filename)).Nodup) : (select_pending_new P c t).Nodup :=
  h.sublist ((List.filter_sublist t).map _)

/-- With distinct filenames, the source-side pending selection carries no
duplicates. -/
theorem select_pending_old_nodup (P : ClauseSem) (c : Config) {t : Table}
    (h : (t.map (·.filename)).Nodup) : (select_pending_old P c t).Nodup :=
  h.sublist ((List.filter_sublist t).map _)

/-- On a duplicate-free list, keeping everything outside the first `K`
elements is exactly dropping the first `K`. -/
theorem filter_not_mem_take {α : Type _} [DecidableEq α] (l : List α) (K : Nat)
    (h : l.Nodup) : l.filter (fun f => decide (f ∉ l.take K)) = l.drop K := by
  have hsplit : List.filter (fun f => decide (f ∉ l.take K)) l =
      List.filter (fun f => decide (f ∉ l.take K)) (l.take K ++ l.drop K) := by
    rw [List.take_append_drop]
  rw [hsplit, List.filter_append]
  have h1 : List.filter (fun f => decide (f ∉ l.take K)) (l.take K) = [] := by
    rw [List.filter_eq_nil_iff]
    intro a ha
    simp [ha]
  have h2 : List.filter (fun f => decide (f ∉ l.take K)) (l.drop K) = l.drop K := by
    rw [List.filter_eq_self]
    intro a ha
    have hd := List.disjoint_take_drop h (le_refl K)
    exact decide_eq_true (fun hmem => hd hmem ha)
  rw [h1, h2, List.nil_append]

/-- Rows whose `hash_new` is already present are untouched by the whole
destination-side phase driven by its own pending selection. -/
theorem hash_new_file_skips_hashed (w : World) (P : ClauseSem) (c : Config)
    {t : Table} (hnodup : (t.map (·.filename)).Nodup) (i : Nat) (e : Entry)
    (hi : t[i]? = some e) (hs : e.hash_new.isSome = true) :
    (hash_new_file w c t (select_pending_new P c t))[i]? = some e := by
  apply foldl_inv _ (fun t' => t'[i]? = some e) _ ?_ _ hi
  intro a b hb ha
  obtain ⟨e', he', hfe', hnull', _⟩ := mem_select_pending_new.mp hb
  have hne : e.filename ≠ b := by
    intro heq
    have hee : e = e' :=
      table_filename_inj hnodup e (List.getElem?_mem hi) e' he' (by rw [heq, hfe'])
    rw [hee, hnull'] at hs
    cases hs
  cases hfa : w.fs_new (c.new_path ++ "/" ++ b) with
  | openFail => simpa [hash_new_step, hfa] using ha
  | readFail => simpa [hash_new_step, hfa] using ha
  | ok bytes =>
      by_cases hu : w.upd_ok_new b
      · simp [hash_new_step, hfa, hu, update_hash_new, List.getElem?_map, ha, hne]
      · simpa [hash_new_step, hfa, hu] using ha

/-- Rows whose `hash_old` is already present are untouched by the whole
source-side phase driven by its own pending selection. -/
theorem hash_old_file_skips_hashed (w : World) (P : ClauseSem) (c : Config)
    {t : Table} (hnodup : (t.map (·.filename)).Nodup) (i : Nat) (e : Entry)
    (hi : t[i]? = some e) (hs : e.hash_old.isSome = true) :
    (hash_old_file w c t (select_pending_old P c t))[i]? = some e := by
  apply foldl_inv _ (fun t' => t'[i]? = some e) _ ?_ _ hi
  intro a b hb ha
  obtain ⟨e', he', hfe', hnull', _⟩ := mem_select_pending_old.mp hb
  have hne : e.filename ≠ b := by
    intro heq
    have hee : e = e' :=
      table_filename_inj hnodup e (List.getElem?_mem hi) e' he' (by rw [heq, hfe'])
    rw [hee, hnull'] at hs
    cases hs
  cases hfa : w.fs_old (c.old_path ++ "/" ++ b) with
  | openFail => simpa [hash_old_step, hfa] using ha
  | readFail => simpa [hash_old_step, hfa] using ha
  | ok bytes =>
      by_cases hu : w.upd_ok_old b
      · simp [hash_old_step, hfa, hu, update_hash_old, List.getElem?_map, ha, hne]
      · simpa [hash_old_step, hfa, hu] using ha

/-- C5: each phase's work list is exactly the rows whose hash column for that
side is null, intersected with the filter when the clause is non-empty;
already-hashed rows are never selected and never modified by that phase; and
after successfully processing the first K pending files, the recomputed
selection is exactly the remaining pending files — an interrupted run resumes
with only the remaining work. -/
theorem C5_selection_and_resume (w : World) (P : ClauseSem) (c : Config)
    (t : Table) (kNew kOld : Nat)
    (hnodup : (t.map (·.filename)).Nodup)
    (hKNew : ∀ f ∈ (select_pending_new P c t).take kNew, new_ok w c f = true)
    (hKOld : ∀ f ∈ (select_pending_old P c t).take kOld, old_ok w c f = true) :
    (∀ f, f ∈ select_pending_new P c t ↔ ∃ e ∈ t, e.filename = f ∧ e.hash_new = none ∧
      (c.where_clause = "" ∨ P c.where_clause e = true)) ∧
    (∀ f, f ∈ select_pending_old P c t ↔ ∃ e ∈ t, e.filename = f ∧ e.hash_old = none ∧
      (c.where_clause = "" ∨ P c.where_clause e = true)) ∧
    (∀ e ∈ t, e.hash_new ≠ none → e.filename ∉ select_pending_new P c t) ∧
    (∀ e ∈ t, e.hash_old ≠ none → e.filename ∉ select_pending_old P c t) ∧
    (∀ (i : Nat) (e : Entry), t[i]? = some e → e.hash_new.isSome = true →
      (hash_new_file w c t (select_pending_new P c t))[i]? = some e) ∧
    (∀ (i : Nat) (e : Entry), t[i]? = some e → e.hash_old.isSome = true →
      (hash_old_file w c t (select_pending_old P c t))[i]? = some e) ∧
    select_pending_new P c (hash_new_file w c t ((select_pending_new P c t).take kNew)) =
      (select_pending_new P c t).drop kNew ∧
    select_pending_old P c (hash_old_file w c t ((select_pending_old P c t).take kOld)) =
      (select_pending_old P c t).drop kOld := by
  refine ⟨?_, ?_, ?_, ?_, ?_, ?_, ?_, ?_⟩
  · intro f
    rw [mem_select_pending_new]
    constructor
    · rintro ⟨e, he, hf, hn, hp⟩
      exact ⟨e, he, hf, hn, passes_filter_iff.mp hp⟩
    · rintro ⟨e, he, hf, hn, hp⟩
      exact ⟨e, he, hf, hn, passes_filter_iff.mpr hp⟩
  · intro f
    rw [mem_select_pending_old]
    constructor
    · rintro ⟨e, he, hf, hn, hp⟩
      exact ⟨e, he, hf, hn, passes_filter_iff.mp hp⟩
    · rintro ⟨e, he, hf, hn, hp⟩
      exact ⟨e, he, hf, hn, passes_filter_iff.mpr hp⟩
  · intro e he hn hmem
    obtain ⟨e', he', hfe', hnull', _⟩ := mem_select_pending_new.mp hmem
    exact hn (by rw [table_filename_inj hnodup e he e' he' hfe'.symm, hnull'])
  · intro e he hn hmem
    obtain ⟨e', he', hfe', hnull', _⟩ := mem_select_pending_old.mp hmem
    exact hn (by rw [table_filename_inj hnodup e he e' he' hfe'.symm, hnull'])
  · intro i e hi hs
    exact hash_new_file_skips_hashed w P c hnodup i e hi hs
  · intro i e hi hs
    exact hash_old_file_skips_hashed w P c hnodup i e hi hs
  · rw [hash_new_file_map w c _ t hKNew,
      select_pending_new_after P c t _ (new_digest w c),
      filter_not_mem_take _ kNew (select_pending_new_nodup P c hnodup)]
  · rw [hash_old_file_map w c _ t hKOld,
      select_pending_old_after P c t _ (old_digest w c),
      filter_not_mem_take _ kOld (select_pending_old_nodup P c hnodup)]

/-- Witness for `C5_selection_and_resume` on a three-row table with one row
already hashed, processing the first pending file. -/
theorem C5_selection_and_resume_witness :
    "b" ∈ select_pending_new semAll cfgHash tbl5 ∧
    select_pending_new semAll cfgHash
        (hash_new_file wld5 cfgHash tbl5 ((select_pending_new semAll cfgHash tbl5).take 1)) =
      (select_pending_new semAll cfgHash tbl5).drop 1 := by
  have h := C5_selection_and_resume wld5 semAll cfgHash tbl5 1 0
    (by decide) (by decide) (by decide)
  refine ⟨?_, h.2.2.2.2.2.2.1⟩
  exact (h.1 "b").mpr ⟨tbl5[1], by decide, rfl, rfl, Or.inl rfl⟩

/-- Membership in the staged rows of a directory's children. -/
theorem mem_walk_files_children {path : String} {cs : List FsNode}
    {r : String × Int × Int} :
    r ∈ walk_files_children path cs ↔
      ∃ c ∈ cs, r ∈ walk_files (path ++ "/" ++ nodeName c) c := by
  induction cs with
  | nil => simp [walk_files_children]
  | cons c cs ih =>
      rw [show walk_files_children path (c :: cs) =
        walk_files (path ++ "/" ++ nodeName c) c ++ walk_files_children path cs from rfl]
      rw [List.mem_append, ih]
      constructor
      · rintro (h | ⟨c', hc', hr⟩)
        · exact ⟨c, List.mem_cons_self c cs, h⟩
        · exact ⟨c', List.mem_cons_of_mem c hc', hr⟩
      · rintro ⟨c', hc', hr⟩
        rcases List.mem_cons.mp hc' with rfl | hc'
        · exact Or.inl hr
        · exact Or.inr ⟨c', hc', hr⟩

/-- Every filesystem node has positive size. -/
theorem sizeOf_pos_fsnode (node : FsNode) : 0 < sizeOf node := by
  cases node <;> simp_arith

/-- A directory child is smaller than the directory node. -/
theorem sizeOf_child_lt {c : FsNode} {cs : List FsNode} (nm : String)
    (hc : c ∈ cs) : sizeOf c < sizeOf (FsNode.dir nm cs) := by
  have h1 := List.sizeOf_lt_of_mem hc
  have h2 : sizeOf (FsNode.dir nm cs) = 1 + sizeOf nm + sizeOf cs := by simp
  omega

/-- The data of a child path splits off the parent path and a separator. -/
theorem child_path_data (base nm : String) :
    (base ++ "/" ++ nm).data = base.data ++ '/' :: nm.data := by
  rw [String.data_append, String.data_append, List.append_assoc]
  rfl

/-- Every row staged under a node at `base` is the node itself at `base` or
lives strictly below `base ++ "/"`. -/
theorem walk_files_under :
    ∀ (n : Nat) (node : FsNode), sizeOf node ≤ n →
      ∀ (base : String) (r : String × Int × Int), r ∈ walk_files base node →
        r.1 = base ∨ ∃ u, r.1.data = base.data ++ '/' :: u := by
  intro n
  induction n with
  | zero =>
      intro node h
      exact absurd (sizeOf_pos_fsnode node) (by omega)
  | succ n ih =>
      intro node hn base r hr
      cases node with
      | file nm sz mt =>
          left
          rw [show walk_files base (.file nm sz mt) = [(base, sz, mt)] from rfl] at hr
          rw [List.mem_singleton.mp hr]
      | other nm =>
          rw [show walk_files base (.other nm) = [] from rfl] at hr
          cases hr
      | dir nm cs =>
          right
          obtain ⟨c, hc, hrc⟩ := mem_walk_files_children.mp hr
          have hsz : sizeOf c ≤ n := by
            have := sizeOf_child_lt nm hc
            omega
          rcases ih c hsz (base ++ "/" ++ nodeName c) r hrc with h | ⟨u, hu⟩
          · exact ⟨(nodeName c).data, by rw [h]; exact child_path_data base (nodeName c)⟩
          · refine ⟨(nodeName c).data ++ '/' :: u, ?_⟩
            rw [hu, child_path_data base (nodeName c)]
            simp

/-- The shape of a row staged under a child of a directory at `base`: the
child's name followed by nothing (the child is the file) or by a separator
and more path. -/
theorem walk_files_child_shape (base : String) (c : FsNode)
    (r : String × Int × Int) (hr : r ∈ walk_files (base ++ "/" ++ nodeName c) c) :
    ∃ s, r.1.data = base.data ++ '/' :: ((nodeName c).data ++ s) ∧
      (s = [] ∨ ∃ u, s = '/' :: u) := by
  rcases walk_files_under (sizeOf c) c le_rfl (base ++ "/" ++ nodeName c) r hr with h | ⟨u, hu⟩
  · exact ⟨[], by rw [h, child_path_data]; simp, Or.inl rfl⟩
  · refine ⟨'/' :: u, ?_, Or.inr ⟨u, rfl⟩⟩
    rw [hu, child_path_data]
    simp

/-- Paths below two differently-named separator-free children of the same
directory are distinct. -/
theorem name_paths_ne {B n1 n2 s1 s2 : List Char}
    (h1 : s1 = [] ∨ ∃ u, s1 = '/' :: u) (h2 : s2 = [] ∨ ∃ u, s2 = '/' :: u)
    (hn2 : '/' ∉ n2) (hn1 : '/' ∉ n1) (hne : n1 ≠ n2) :
    B ++ '/' :: (n1 ++ s1) ≠ B ++ '/' :: (n2 ++ s2) := by
  intro h
  have h' : n1 ++ s1 = n2 ++ s2 := by
    have h0 := List.append_cancel_left h
    injection h0
  rcases List.append_eq_append_iff.mp h' with ⟨k, hk1, hk2⟩ | ⟨k, hk1, hk2⟩
  · cases k with
    | nil =>
        rw [List.append_nil] at hk1
        exact hne hk1.symm
    | cons kh kt =>
        have hkh : kh ∈ n2 := by
          rw [hk1]
          exact List.mem_append_right n1 (List.mem_cons_self kh kt)
        have hkhne : kh ≠ '/' := fun he => hn2 (he ▸ hkh)
        rcases h1 with hs1 | ⟨u, hu⟩
        · rw [hs1] at hk2
          cases hk2
        · rw [hu] at hk2
          injection hk2 with hk2a
          exact hkhne hk2a.symm
  · cases k with
    | nil =>
        rw [List.append_nil] at hk1
        exact hne hk1
    | cons kh kt =>
        have hkh : kh ∈ n1 := by
          rw [hk1]
          exact List.mem_append_right n2 (List.mem_cons_self kh kt)
        have hkhne : kh ≠ '/' := fun he => hn1 (he ▸ hkh)
        rcases h2 with hs2 | ⟨u, hu⟩
        · rw [hs2] at hk2
          cases hk2
        · rw [hu] at hk2
          injection hk2 with hk2a
          exact hkhne hk2a.symm

/-- Under a well-formed tree, the staged paths are pairwise distinct. -/
theorem walk_files_nodup_aux :
    ∀ (n : Nat) (node : FsNode), sizeOf node ≤ n → WFTree node →
      ∀ base, ((walk_files base node).map (·.1)).Nodup := by
  intro n
  induction n with
  | zero =>
      intro node h
      exact absurd (sizeOf_pos_fsnode node) (by omega)
  | succ n ih =>
      intro node hn hwf base
      cases node with
      | file nm sz mt => simp [walk_files]
      | other nm => simp [walk_files]
      | dir nm cs =>
          cases hwf with
          | dir hwfc hns hnd =>
          show ((walk_files_children base cs).map (·.1)).Nodup
          have hsz : ∀ c ∈ cs, sizeOf c ≤ n := by
            intro c hc
            have := sizeOf_child_lt nm hc
            omega
          clear hn
          induction cs with
          | nil => simp [walk_files_children]
          | cons c cs' ihc =>
              rw [show walk_files_children base (c :: cs') =
                walk_files (base ++ "/" ++ nodeName c) c ++ walk_files_children base cs' from rfl]
              rw [List.map_append, List.nodup_append]
              refine ⟨?_, ?_, ?_⟩
              · exact ih c (hsz c (List.mem_cons_self c cs'))
                  (hwfc c (List.mem_cons_self c cs')) _
              · exact ihc (fun d hd => hwfc d (List.mem_cons_of_mem c hd))
                  (fun d hd => hns d (List.mem_cons_of_mem c hd))
                  ((List.nodup_cons.mp hnd).2)
                  (fun d hd => hsz d (List.mem_cons_of_mem c hd))
              · intro p hp1 hp2
                obtain ⟨r1, hr1, hp1e⟩ := List.mem_map.mp hp1
                obtain ⟨r2, hr2m, hp2e⟩ := List.mem_map.mp hp2
                obtain ⟨c', hc', hr2⟩ := mem_walk_files_children.mp hr2m
                obtain ⟨s1, he1, hcond1⟩ := walk_files_child_shape base c r1 hr1
                obtain ⟨s2, he2, hcond2⟩ := walk_files_child_shape base c' r2 hr2
                have hnamene : nodeName c ≠ nodeName c' := by
                  intro heqn
                  exact (List.nodup_cons.mp hnd).1
                    (heqn ▸ List.mem_map_of_mem nodeName hc')
                have hdata : r1.1.data = r2.1.data := by rw [hp1e, hp2e]
                rw [he1, he2] at hdata
                exact name_paths_ne hcond1 hcond2
                  (hns c' (List.mem_cons_of_mem c hc'))
                  (hns c (List.mem_cons_self c cs'))
                  (fun hd => hnamene (String.ext hd)) hdata

/-- Under a well-formed tree, the staged paths are pairwise distinct. -/
theorem walk_files_nodup (node : FsNode) (hwf : WFTree node) (base : String) :
    ((walk_files base node).map (·.1)).Nodup :=
  walk_files_nodup_aux (sizeOf node) node le_rfl hwf base

/-- Every row staged by walking a directory at `base` lives below
`base ++ "/"`. -/
theorem walk_files_dir_root (base : String) {nm : String} {cs : List FsNode}
    (r : String × Int × Int) (hr : r ∈ walk_files base (.dir nm cs)) :
    ∃ u, r.1.data = (base ++ "/").data ++ u := by
  obtain ⟨c, _, hrc⟩ := mem_walk_files_children.mp hr
  obtain ⟨s, he, _⟩ := walk_files_child_shape base c r hrc
  refine ⟨(nodeName c).data ++ s, ?_⟩
  rw [he, String.data_append, List.append_assoc]
  rfl

/-- Stripping a prefix that is genuinely present is undone by re-attaching
it. -/
theorem trim_reattach (pre : String) {p : String} {u : List Char}
    (h : p.data = pre.data ++ u) : pre ++ trimPrefixGo p pre = p := by
  unfold trimPrefixGo hasPrefixGo
  rw [if_pos ( List.isPrefixOf_iff_prefix.mpr ⟨u, h.symm⟩)]
  apply String.ext
  rw [String.data_append]
  show pre.data ++ p.data.drop pre.data.length = p.data
  rw [h, List.drop_left]

/-- C2: enumerating into an empty ledger over a well-formed destination tree
stages exactly one row per regular file reachable under the root — re-attaching
the root prefix to the row's filename recovers the file's path, the filenames
are pairwise distinct, each row carries the file's size and modification time,
and both hash columns are null. -/
theorem C2_enumeration_rows (c : Config) (nm : String) (cs : List FsNode)
    (hwf : WFTree (.dir nm cs)) :
    ((enumerate c (.dir nm cs) []).map fun e => c.new_path ++ "/" ++ e.filename) =
      (walk_files c.new_path (.dir nm cs)).map (·.1) ∧
    ((enumerate c (.dir nm cs) []).map (·.filename)).Nodup ∧
    ((enumerate c (.dir nm cs) []).map fun e => (e.size, e.changed)) =
      (walk_files c.new_path (.dir nm cs)).map (fun r => (r.2.1, r.2.2)) ∧
    ∀ e ∈ enumerate c (.dir nm cs) [], e.hash_new = none ∧ e.hash_old = none := by
  have henum : enumerate c (.dir nm cs) [] = staged_rows c (.dir nm cs) := by
    unfold enumerate
    simp
  refine ⟨?_, ?_, ?_, ?_⟩
  · rw [henum]
    unfold staged_rows
    rw [List.map_map]
    apply List.map_congr_left
    intro r hr
    obtain ⟨u, hu⟩ := walk_files_dir_root c.new_path r hr
    exact trim_reattach (c.new_path ++ "/") hu
  · rw [henum]
    unfold staged_rows
    rw [List.map_map]
    have hcomp : (walk_files c.new_path (.dir nm cs)).map ((·.filename) ∘ staged_entry c) =
        ((walk_files c.new_path (.dir nm cs)).map (·.1)).map
          (fun p => trimPrefixGo p (c.new_path ++ "/")) := by
      rw [List.map_map]
      rfl
    rw [hcomp]
    apply List.Nodup.map_on ?_ (walk_files_nodup _ hwf c.new_path)
    intro p1 h1 p2 h2 heq
    obtain ⟨r1, hr1, hp1⟩ := List.mem_map.mp h1
    obtain ⟨r2, hr2, hp2⟩ := List.mem_map.mp h2
    obtain ⟨u1, hu1⟩ := walk_files_dir_root c.new_path r1 hr1
    obtain ⟨u2, hu2⟩ := walk_files_dir_root c.new_path r2 hr2
    have e1 := trim_reattach (c.new_path ++ "/") (hp1 ▸ hu1)
    have e2 := trim_reattach (c.new_path ++ "/") (hp2 ▸ hu2)
    rw [← e1, ← e2, heq]
  · rw [henum]
    unfold staged_rows
    rw [List.map_map]
    rfl
  · rw [henum]
    intro e he
    obtain ⟨r, _, hre⟩ := List.mem_map.mp he
    rw [← hre]
    exact ⟨rfl, rfl⟩

/-- Witness for `C2_enumeration_rows` on a two-file tree with a subdirectory
and a non-regular entry. -/
theorem C2_enumeration_rows_witness :
    ((enumerate cfg2 tree2 []).map (·.filename)).Nodup := by
  have hsub : WFTree (.dir "sub" [.file "b" 0 9]) := by
    refine WFTree.dir ?_ ?_ ?_
    · intro d hd
      rcases List.mem_cons.mp hd with rfl | hd
      · exact WFTree.file
      · cases hd
    · intro d hd
      rcases List.mem_cons.mp hd with rfl | hd
      · show ('/' : Char) ∉ ("b" : String).data
        decide
      · cases hd
    · decide
  have hwf : WFTree (.dir "dst" [.file "a" 4 7, .dir "sub" [.file "b" 0 9], .other "link"]) := by
    refine WFTree.dir ?_ ?_ ?_
    · intro d hd
      rcases List.mem_cons.mp hd with rfl | hd
      · exact WFTree.file
      · rcases List.mem_cons.mp hd with rfl | hd
        · exact hsub
        · rcases List.mem_cons.mp hd with rfl | hd
          · exact WFTree.other
          · cases hd
    · intro d hd
      rcases List.mem_cons.mp hd with rfl | hd
      · show ('/' : Char) ∉ ("a" : String).data
        decide
      · rcases List.mem_cons.mp hd with rfl | hd
        · show ('/' : Char) ∉ ("sub" : String).data
          decide
        · rcases List.mem_cons.mp hd with rfl | hd
          · show ('/' : Char) ∉ ("link" : String).data
            decide
          · cases hd
    · decide
  exact (C2_enumeration_rows cfg2 "dst"
    [.file "a" 4 7, .dir "sub" [.file "b" 0 9], .other "link"] hwf).2.1

end IntegrityCheck
